import Mathlib

/- Shallow embedding of the core scoring pipeline of pingpongpro
   (src/apps/pingpongpro/pingpongpro.cpp).

   Modelling conventions:
   - C++ std::map containers are modelled as key-ascending association lists
     (std::map iterates its entries in ascending key order).
   - C++ float arithmetic is modelled as exact rational arithmetic.
   - C++ log10 on positive arguments is modelled as Real.logb 10.
   - The float-to-unsigned-int conversion used for map keys truncates toward
     zero; all stack heights in the program are non-negative, so it is
     modelled as Int.toNat of the floor.
   - static_cast<int> truncates toward zero, and the subsequent implicit
     int-to-unsigned conversion reduces modulo 2^32. -/

/-- One genomic locus on one strand: number of reads beginning there and
whether any of them had uridine at the 5-prime end
(struct TCountsPosition, pingpongpro.cpp lines 61 to 69). -/
structure TCountsPosition where
  reads : ℚ
  UAt5PrimeEnd : Bool
deriving DecidableEq

/-- Default-constructed TCountsPosition: 0 reads, flag false. -/
def defaultPosition : TCountsPosition := ⟨0, false⟩

/-- Lookup in an association list, the semantics of std::map::find. -/
def alistFind {α : Type} (m : List (ℕ × α)) (k : ℕ) : Option α :=
  match m with
  | [] => none
  | (k', v) :: rest => if k = k' then some v else alistFind rest k

/-- Key-ascending insert-or-modify: the semantics of std::map::operator[]
followed by an update of the mapped value. If the key is absent it is
inserted (keeping keys ascending) holding f applied to the default value,
otherwise f is applied to the stored value. -/
def alistUpdate {α : Type} (dflt : α) (f : α → α) (k : ℕ) (m : List (ℕ × α)) : List (ℕ × α) :=
  match m with
  | [] => [(k, f dflt)]
  | (k', v) :: rest =>
    if k < k' then (k, f dflt) :: (k', v) :: rest
    else if k = k' then (k', f v) :: rest
    else (k', v) :: alistUpdate dflt f k rest

/-- Per-contig position map (TCountsContig). -/
abbrev TCountsContig := List (ℕ × TCountsPosition)

/-- Per-strand contig map (TCountsStrand). -/
abbrev TCountsStrand := List (ℕ × TCountsContig)

/-- The two per-strand sparse coverage maps (TCountsGenome = TCountsStrand[2],
indices STRAND_PLUS = 0 and STRAND_MINUS = 1). -/
structure TCountsGenome where
  strandPlus : TCountsStrand
  strandMinus : TCountsStrand
deriving DecidableEq

def STRAND_PLUS : ℕ := 0

def STRAND_MINUS : ℕ := 1

/-- How multi-mapping reads are counted (enum TCountMultiHits). -/
inductive TCountMultiHits where
  | multiHitsWeighted
  | multiHitsDiscard
  | multiHitsUnique
deriving DecidableEq

/-- The fields of a decoded alignment record that countReadsInBamFile reads.
The mapped flag abstracts the beginPos sentinel comparisons of line 260; nh
is the optional NH tag (number of hits); for reads mapping to the minus
strand the stored sequence is the reverse complement of the physical read. -/
structure BamRecord where
  mapped : Bool
  strandMinus : Bool
  rID : ℕ
  beginPos : ℕ
  seq : List Char
  cigar : List (Char × ℕ)
  nh : Option ℕ

/-- Multiplicity of a record: the NH tag value, defaulting to 1 when the tag
is absent (pingpongpro.cpp lines 277 to 279). -/
def readMultiplicity (r : BamRecord) : ℕ := r.nh.getD 1

/-- The weight by which a record increases its stack
(pingpongpro.cpp lines 265 to 291). In the C++ source the NH value is an
unsigned int read from the file; a malformed NH value of 0 under the
weighted policy would be a float division by zero there, while here
rational division by zero yields 0. -/
def recordWeight (countMultiHits : TCountMultiHits) (r : BamRecord) : ℚ :=
  match countMultiHits with
  | .multiHitsUnique => 1
  | .multiHitsWeighted => 1 / (readMultiplicity r : ℚ)
  | .multiHitsDiscard => if readMultiplicity r = 1 then 1 else 0

/-- Effect of one counted read on its position record: reads grows by the
weight and the uridine flag is or-combined (lines 313 to 314, 325 to 326
set it to true, line 330 adds the weight). -/
def updatePosition (w : ℚ) (isU : Bool) (p : TCountsPosition) : TCountsPosition :=
  { reads := p.reads + w, UAt5PrimeEnd := p.UAt5PrimeEnd || isU }

/-- Apply updatePosition at (contig rid, position key) of one strand map,
creating default entries on the way, the semantics of the chained
std::map::operator[] calls of lines 307 and 319. -/
def updateStrandCounts (s : TCountsStrand) (rid key : ℕ) (w : ℚ) (isU : Bool) : TCountsStrand :=
  alistUpdate [] (alistUpdate defaultPosition (updatePosition w isU) key) rid s

/-- Apply updateStrandCounts on the strand selected by index. -/
def updateGenome (g : TCountsGenome) (strand rid key : ℕ) (w : ℚ) (isU : Bool) : TCountsGenome :=
  if strand = STRAND_MINUS then
    { g with strandMinus := updateStrandCounts g.strandMinus rid key w isU }
  else
    { g with strandPlus := updateStrandCounts g.strandPlus rid key w isU }

/-- Number of reference bases consumed by a CIGAR string: the sum of the
lengths of the M, N, D, = and X operations, accumulated left to right
(pingpongpro.cpp lines 299 to 304). -/
def alignedLen (cigar : List (Char × ℕ)) : ℕ :=
  cigar.foldl (fun acc c =>
    if c.1 = 'M' ∨ c.1 = 'N' ∨ c.1 = 'D' ∨ c.1 = '=' ∨ c.1 = 'X' then acc + c.2 else acc) 0

/-- Soft-clipped bases at the stored 3-prime end of a minus-strand record:
the length of the final S operation, but only when the CIGAR has more than
one element (pingpongpro.cpp lines 310 to 312). -/
def clippedBasesMinus (cigar : List (Char × ℕ)) : ℕ :=
  if 1 < cigar.length ∧ ((cigar.getLast?).getD ('M', 0)).1 = 'S' then
    ((cigar.getLast?).getD ('M', 0)).2
  else 0

/-- Soft-clipped bases at the stored start of a plus-strand record: the
length of a leading S operation (pingpongpro.cpp lines 322 to 324). -/
def clippedBasesPlus (cigar : List (Char × ℕ)) : ℕ :=
  if ((cigar.headD ('M', 0))).1 = 'S' then (cigar.headD ('M', 0)).2 else 0

/-- Processing of a single alignment record by the stack accumulator
(the loop body of countReadsInBamFile, pingpongpro.cpp lines 260 to 331). -/
def processRecord (minReadLength maxReadLength : ℕ) (countMultiHits : TCountMultiHits)
    (g : TCountsGenome) (r : BamRecord) : TCountsGenome :=
  if r.mapped = true ∧ minReadLength ≤ r.seq.length ∧ r.seq.length ≤ maxReadLength then
    if recordWeight countMultiHits r ≤ 0 then g
    else if r.strandMinus = true then
      let base := r.seq.getD (r.seq.length - clippedBasesMinus r.cigar - 1) '?'
      updateGenome g STRAND_MINUS r.rID (r.beginPos + alignedLen r.cigar)
        (recordWeight countMultiHits r) (base == 'A' || base == 'a')
    else
      let base := r.seq.getD (clippedBasesPlus r.cigar) '?'
      updateGenome g STRAND_PLUS r.rID r.beginPos
        (recordWeight countMultiHits r) (base == 'T' || base == 't')
  else g

/-- The whole accumulator run over a list of already-decoded records
(countReadsInBamFile, successful path). -/
def countReadsInBamFile (minReadLength maxReadLength : ℕ) (countMultiHits : TCountMultiHits)
    (g : TCountsGenome) (records : List BamRecord) : TCountsGenome :=
  records.foldl (processRecord minReadLength maxReadLength countMultiHits) g

/-- Stack-height frequency map (THeightScoreMap = map from unsigned int to float). -/
abbrev THeightScoreMap := List (ℕ × ℚ)

/-- Key used by mapHeightsToScores: reads + 0.5 converted from float to
unsigned int, which truncates toward zero (pingpongpro.cpp line 377). -/
def roundHeight (q : ℚ) : ℕ := (⌊q + 1/2⌋).toNat

/-- Key used by countStacksByGroup map lookups: reads converted from float
to unsigned int with no prior rounding (pingpongpro.cpp lines 438 and 445). -/
def truncHeight (q : ℚ) : ℕ := (⌊q⌋).toNat

/-- std::map::operator[] followed by += 1 on a THeightScoreMap. -/
def mapIncr (m : THeightScoreMap) (k : ℕ) : THeightScoreMap :=
  alistUpdate 0 (· + 1) k m

/-- std::map::operator[] used as an rvalue: returns the stored value, or
inserts the key with value 0 and returns 0 when the key is absent. The
returned map reflects the possible insertion. -/
def mapIndex (m : THeightScoreMap) (k : ℕ) : ℚ × THeightScoreMap :=
  ((alistFind m k).getD 0, alistUpdate 0 id k m)

/-- All position records of the genome, plus strand first, in iteration
order of the nested maps. -/
def genomePositions (g : TCountsGenome) : List TCountsPosition :=
  ((g.strandPlus.map fun c => c.2.map (·.2)).flatten) ++
    ((g.strandMinus.map fun c => c.2.map (·.2)).flatten)

/-- The height-score mapper: visit every position of both strands and
count how many stacksOnMinusStrand there are of each rounded height
(mapHeightsToScores, pingpongpro.cpp lines 371 to 379). -/
def mapHeightsToScores (g : TCountsGenome) : THeightScoreMap :=
  (genomePositions g).foldl (fun m p => mapIncr m (roundHeight p.reads)) []

/-- Signal distance: true ping-pong stacksOnMinusStrand overlap by 10 nt (PING_PONG_OVERLAP). -/
def PING_PONG_OVERLAP : ℕ := 10

def MIN_ARBITRARY_OVERLAP : ℕ := 0

def MAX_ARBITRARY_OVERLAP : ℕ := 20

def HEIGHT_SCORE_BINS : ℕ := 1000

/-- The probability of having uridine at the 5-prime end of reads for
non-piRNA data (URIDINE_PROBABILITY = 0.25). -/
def URIDINE_PROBABILITY : ℚ := 1/4

/-- Bin index constants for the binary histogram dimensions. -/
def IS_URIDINE : Fin 2 := 0

def IS_NOT_URIDINE : Fin 2 := 1

def IS_ABOVE_COVERAGE : Fin 2 := 0

def IS_BELOW_COVERAGE : Fin 2 := 1

/-- The 5-dimensional evidence histogram of countStacksByGroup, viewed as a
total function from (overlap index, height-score bin, plus-strand uridine
bin, minus-strand uridine bin, local-height bin) to the accumulated count.
In the C++ source this is a nested vector of extents 21, 1000, 2, 2, 2; a
total function records the value added at every index the program writes,
including a height-score bin index outside the allocated 0 to 999 range
(which in C++ is an out-of-bounds vector access). -/
abbrev TGroupedStackCounts := ℕ → ℕ → Fin 2 → Fin 2 → Fin 2 → ℚ

def emptyGroupedStackCounts : TGroupedStackCounts := fun _ _ _ _ _ => 0

/-- Add d to a single cell of the histogram. -/
def bumpHist (H : TGroupedStackCounts) (ov bin : ℕ) (i j k : Fin 2) (d : ℚ) : TGroupedStackCounts :=
  fun ov' bin' i' j' k' =>
    if ov' = ov ∧ bin' = bin ∧ i' = i ∧ j' = j ∧ k' = k then H ov' bin' i' j' k' + d
    else H ov' bin' i' j' k'

/-- Record one overlap hit in the histogram (pingpongpro.cpp lines 458 to
475): at the signal distance the single observed uridine-combination cell
grows by 1; at a background distance 1 unit of evidence is distributed over
the four uridine combinations with the fixed prior URIDINE_PROBABILITY. -/
def recordHit (H : TGroupedStackCounts) (ov bin : ℕ) (uPlus uMinus lb : Fin 2) : TGroupedStackCounts :=
  if ov = PING_PONG_OVERLAP then
    bumpHist H ov bin uPlus uMinus lb 1
  else
    bumpHist
      (bumpHist
        (bumpHist
          (bumpHist H ov bin IS_URIDINE IS_URIDINE lb
            (URIDINE_PROBABILITY * URIDINE_PROBABILITY))
          ov bin IS_NOT_URIDINE IS_URIDINE lb
          ((1 - URIDINE_PROBABILITY) * URIDINE_PROBABILITY))
        ov bin IS_URIDINE IS_NOT_URIDINE lb
        (URIDINE_PROBABILITY * (1 - URIDINE_PROBABILITY)))
      ov bin IS_NOT_URIDINE IS_NOT_URIDINE lb
      ((1 - URIDINE_PROBABILITY) * (1 - URIDINE_PROBABILITY))

/-- The minus-strand entries overlapping a plus-strand position by 0 to 20 nt
(the stacksOnMinusStrand vector, pingpongpro.cpp lines 417 to 432). -/
def vicinity (contigMinus : TCountsContig) (p : ℕ) : List (Option TCountsPosition) :=
  (List.range (MAX_ARBITRARY_OVERLAP - MIN_ARBITRARY_OVERLAP + 1)).map
    (fun ov => alistFind contigMinus (p + ov))

/-- Sum of the stack heights found in the vicinity (misses count as zero). -/
def vicinityReadsSum (stacksOnMinusStrand : List (Option TCountsPosition)) : ℚ :=
  stacksOnMinusStrand.foldl (fun a o => match o with | some q => a + q.reads | none => a) 0

/-- Largest stack height found in the vicinity (0 when there is none),
pingpongpro.cpp lines 427 to 429. -/
def vicinityMax (stacksOnMinusStrand : List (Option TCountsPosition)) : ℚ :=
  stacksOnMinusStrand.foldl (fun a o => match o with | some q => if a < q.reads then q.reads else a | none => a) 0

def uridineBin (b : Bool) : Fin 2 := if b then IS_URIDINE else IS_NOT_URIDINE

/-- Processing of one overlap offset at a plus-strand position (the body of
the inner for loop, pingpongpro.cpp lines 440 to 476): a missing
minus-strand stack contributes nothing; a present one is scored against
the height-score map (an operator[] access that may insert a 0 entry),
binned, classified by local height, and recorded. heightScorePlus, the
vicinity mean and maximum and the vicinity size are fixed for the whole
plus-strand position. -/
def processOverlapHit (binf : ℚ → ℕ) (heightScorePlus mean maxV nStacks : ℚ) (uP : Bool)
    (st2 : TGroupedStackCounts × THeightScoreMap) (ovp : ℕ × Option TCountsPosition) :
    TGroupedStackCounts × THeightScoreMap :=
  match ovp.2 with
  | none => st2
  | some pm =>
    let r2 := mapIndex st2.2 (truncHeight pm.reads)
    let heightScore := heightScorePlus * r2.1
    let localHeightScore := (pm.reads - (mean - pm.reads / nStacks)) / maxV
    let localBin : Fin 2 :=
      if localHeightScore < 1/5 then IS_BELOW_COVERAGE else IS_ABOVE_COVERAGE
    (recordHit st2.1 ovp.1 (binf heightScore)
      (uridineBin uP) (uridineBin pm.UAt5PrimeEnd) localBin, r2.2)

/-- Processing of one plus-strand position by the overlap grouper
(pingpongpro.cpp lines 415 to 479), parameterized by the height-score
binning function binf. The state is the histogram together with the
height-score map, which operator[] lookups may extend with 0-valued
entries. The C++ loop computes the vicinity, its mean and its maximum in
one pass; they are computed here by separate folds over the same list.
The literal 1/5 is the float threshold 0.2 of line 456. -/
def processPlusPosition (binf : ℚ → ℕ) (contigMinus : TCountsContig)
    (st : TGroupedStackCounts × THeightScoreMap) (pp : ℕ × TCountsPosition) :
    TGroupedStackCounts × THeightScoreMap :=
  let stacksOnMinusStrand := vicinity contigMinus pp.1
  let meanStackHeightInVicinity := vicinityReadsSum stacksOnMinusStrand / (stacksOnMinusStrand.length : ℚ)
  let maxStackHeightInVicinity := vicinityMax stacksOnMinusStrand
  if 0 < maxStackHeightInVicinity then
    let r1 := mapIndex st.2 (truncHeight pp.2.reads)
    stacksOnMinusStrand.enum.foldl
      (processOverlapHit binf r1.1 meanStackHeightInVicinity maxStackHeightInVicinity
        (stacksOnMinusStrand.length : ℚ) pp.2.UAt5PrimeEnd)
      (st.1, r1.2)
  else st

/-- The overlap grouper scan with an abstract height-score binning function:
for every contig present on both strands, every plus-strand position is
checked against the minus-strand stacksOnMinusStrand 0 to 20 nt downstream
(countStacksByGroup, pingpongpro.cpp lines 410 to 481). -/
def countStacksByGroupWith (binf : ℚ → ℕ) (g : TCountsGenome) (hsm : THeightScoreMap) :
    TGroupedStackCounts × THeightScoreMap :=
  g.strandPlus.foldl
    (fun st cp =>
      match alistFind g.strandMinus cp.1 with
      | none => st
      | some cm => cp.2.foldl (processPlusPosition binf cm) st)
    (emptyGroupedStackCounts, hsm)

/-- Truncation toward zero, the semantics of static_cast<int> on a real value. -/
noncomputable def realTruncToInt (x : ℝ) : ℤ := if 0 ≤ x then ⌊x⌋ else ⌈x⌉

/-- Reduction modulo 2^32, the semantics of storing an int in an unsigned int. -/
def intToUnsigned (z : ℤ) : ℕ := (z % (2 ^ 32 : ℤ)).toNat

/-- The normalizing constant of the height-score binning: log10 of the
squared frequency of the smallest observed stack height, computed from the
first entry of the (key-ascending) height-score map
(maxHeightScore, pingpongpro.cpp lines 406 to 407). -/
noncomputable def maxHeightScore (hsm : THeightScoreMap) : ℝ :=
  Real.logb 10 ((((hsm.headD (0, 0)).2 * (hsm.headD (0, 0)).2 : ℚ) : ℝ))

/-- The height-score bin computation of pingpongpro.cpp lines 448 to 451:
unsigned int heightScoreBin = static_cast<int>(0.5 + log10(heightScore) /
maxHeightScore * (1000 - 1)). There is no clamping. -/
noncomputable def heightScoreBin (maxHS : ℝ) (heightScore : ℚ) : ℕ :=
  intToUnsigned (realTruncToInt
    (0.5 + Real.logb 10 ((heightScore : ℝ)) / maxHS * ((HEIGHT_SCORE_BINS : ℝ) - 1)))

/-- The overlap grouper as the program runs it: the binning function is
heightScoreBin with the normalizing constant taken from the height-score
map before the scan starts. -/
noncomputable def countStacksByGroup (g : TCountsGenome) (hsm : THeightScoreMap) :
    TGroupedStackCounts × THeightScoreMap :=
  countStacksByGroupWith (heightScoreBin (maxHeightScore hsm)) g hsm

/-- One height-score bin of the histogram handed to the bin collapser: its
cells across the 21 overlap indices and the three binary dimensions. The
C++ container nests overlap outside the height-score bin with all overlaps
holding the same number of bins; the collapser is modelled on the
transposed view, a list of height-score bins. -/
abbrev THeightBin := Fin 21 → Fin 2 → Fin 2 → Fin 2 → ℚ

def zeroHeightBin : THeightBin := fun _ _ _ _ => 0

/-- Cell-wise sum of two height-score bins (the += of line 511). -/
def addHeightBin (a b : THeightBin) : THeightBin := fun ov i j k => a ov i j k + b ov i j k

/-- A collapsed bin is still empty when some cell of a background overlap
(overlap index other than PING_PONG_OVERLAP) is ≤ 0; the do-while of
pingpongpro.cpp lines 502 to 520 keeps merging while this holds. -/
def hasEmptyBackground (b : THeightBin) : Prop :=
  ∃ ov : Fin 21, ∃ i j k : Fin 2, ov.val ≠ PING_PONG_OVERLAP ∧ b ov i j k ≤ 0

instance (b : THeightBin) : Decidable (hasEmptyBackground b) := by
  unfold hasEmptyBackground
  infer_instance

/-- The inner do-while loop of collapseBins (lines 502 to 520): absorb
input bins into the accumulator until no background cell of the
accumulator is ≤ 0 or the input bins are exhausted. Returns the finished
output bin together with the remaining input bins. -/
def absorb (acc : THeightBin) : List THeightBin → THeightBin × List THeightBin
  | [] => (acc, [])
  | b :: rest =>
    match rest with
    | [] => (addHeightBin acc b, [])
    | c :: rs =>
      if hasEmptyBackground (addHeightBin acc b) then absorb (addHeightBin acc b) (c :: rs)
      else (addHeightBin acc b, c :: rs)

/-- The outer while loop of collapseBins (lines 490 to 523): start each
output bin from zero and absorb input bins into it. The fuel argument
bounds the number of outer iterations; each iteration consumes at least
one input bin, so an initial fuel of the input length reproduces the loop. -/
def collapseGo : ℕ → List THeightBin → List THeightBin
  | _, [] => []
  | 0, _ :: _ => []
  | fuel + 1, b :: rest =>
    let p := absorb zeroHeightBin (b :: rest)
    p.1 :: collapseGo fuel p.2

/-- The bin collapser (collapseBins, pingpongpro.cpp lines 485 to 566):
height-score bins are merged left to right until every background cell is
positive, and the output is resized to the number of bins produced. -/
def collapseBins (l : List THeightBin) : List THeightBin :=
  collapseGo l.length l

/-- Claim-side formulation of the minus-strand 5-prime key shift: the sum
of the lengths of the CIGAR operations in the set M, N, D, =, X. -/
def fivePrimeShiftSpec (cigar : List (Char × ℕ)) : ℕ :=
  ((cigar.filter (fun c =>
    c.1 == 'M' || c.1 == 'N' || c.1 == 'D' || c.1 == '=' || c.1 == 'X')).map (·.2)).sum

/-- Claim-side formulation of the minus-strand uridine test: the last
unclipped base of the stored sequence, skipping a trailing soft-clip,
is adenine (upper or lower case). -/
def minusUridineSpec (r : BamRecord) : Bool :=
  let clip :=
    match r.cigar.getLast? with
    | some c => if c.1 = 'S' then c.2 else 0
    | none => 0
  let base := r.seq.getD (r.seq.length - clip - 1) '?'
  base == 'A' || base == 'a'

/-- Keys of an association list are strictly ascending, the std::map
invariant maintained by alistUpdate. -/
def keysAscending {α : Type} (m : List (ℕ × α)) : Prop :=
  List.Pairwise (fun a b => a.1 < b.1) m

/-- Relation between a height-score map and a version of it extended by
operator[] lookups: every stored entry is kept unchanged and any new entry
holds the default value 0. -/
def hsmExtends (m m' : THeightScoreMap) : Prop :=
  (∀ k v, alistFind m k = some v → alistFind m' k = some v) ∧
  (∀ k v, alistFind m' k = some v → alistFind m k = some v ∨ v = 0)

/-- Example genome: four stacks of height 2 and two of height 1, with one
overlapping pair of height-2 stacks at plus position 0 and minus position
10 of contig 0. -/
def gEx1 : TCountsGenome :=
  ⟨[(0, [(0, ⟨2, false⟩), (1000, ⟨1, false⟩), (3000, ⟨2, false⟩)])],
   [(0, [(10, ⟨2, false⟩), (2000, ⟨1, false⟩), (4000, ⟨2, false⟩)])]⟩

/-- Example genome: a plus-strand stack of fractional height 1/2 opposite
a minus-strand stack of height 1 at the signal distance. -/
def gEx2 : TCountsGenome :=
  ⟨[(0, [(0, ⟨1/2, false⟩)])], [(0, [(10, ⟨1, false⟩)])]⟩

/-- A height-score bin with every cell equal to 1. -/
def oneHeightBin : THeightBin := fun _ _ _ _ => 1

/-- Example record: a mapped minus-strand read of length 3 with a fully
aligned CIGAR and an adenine as last stored base. -/
def rEx5 : BamRecord := ⟨true, true, 0, 100, ['G', 'C', 'A'], [('M', 3)], none⟩

/-- Example record: a mapped plus-strand read carrying NH = 2. -/
def rEx7 : BamRecord := ⟨true, false, 0, 50, ['T', 'C', 'G'], [('M', 3)], some 2⟩

/- ------------------------------------------------------------------ -/
/- Association list lemmas                                             -/
/- ------------------------------------------------------------------ -/

theorem alistFind_eq_none_of_forall {α : Type} (m : List (ℕ × α)) (k : ℕ)
    (h : ∀ e ∈ m, k ≠ e.1) : alistFind m k = none := by
  induction m with
  | nil => rfl
  | cons e rest ih =>
    obtain ⟨k', v⟩ := e
    simp only [alistFind]
    rw [if_neg (h (k', v) (List.mem_cons_self _ _))]
    exact ih fun e he => h e (List.mem_cons_of_mem _ he)

theorem alistFind_update_ne {α : Type} (dflt : α) (f : α → α) (k k' : ℕ)
    (m : List (ℕ × α)) (h : k' ≠ k) :
    alistFind (alistUpdate dflt f k m) k' = alistFind m k' := by
  induction m with
  | nil => simp [alistUpdate, alistFind, h]
  | cons e rest ih =>
    obtain ⟨k'', v⟩ := e
    simp only [alistUpdate]
    rcases Nat.lt_trichotomy k k'' with hlt | heq | hgt
    · rw [if_pos hlt]
      simp only [alistFind]
      rw [if_neg h]
    · rw [if_neg (by omega), if_pos heq]
      subst heq
      simp only [alistFind]
      by_cases hk : k' = k
      · exact absurd hk h
      · rw [if_neg hk, if_neg hk]
    · rw [if_neg (by omega), if_neg (by omega)]
      simp only [alistFind]
      by_cases hk : k' = k''
      · rw [if_pos hk, if_pos hk]
      · rw [if_neg hk, if_neg hk, ih]

theorem alistUpdate_keys_subset {α : Type} (dflt : α) (f : α → α) (k : ℕ)
    (m : List (ℕ × α)) :
    ∀ e ∈ alistUpdate dflt f k m, e.1 = k ∨ e.1 ∈ m.map Prod.fst := by
  induction m with
  | nil => simp [alistUpdate]
  | cons e rest ih =>
    obtain ⟨k'', v⟩ := e
    simp only [alistUpdate]
    rcases Nat.lt_trichotomy k k'' with hlt | heq | hgt
    · rw [if_pos hlt]
      intro e' he'
      rcases List.mem_cons.mp he' with h1 | h2
      · left; rw [h1]
      · right
        simpa using List.mem_map_of_mem Prod.fst h2
    · rw [if_neg (by omega), if_pos heq]
      intro e' he'
      rcases List.mem_cons.mp he' with h1 | h2
      · right; rw [h1]; simp
      · right
        simp only [List.map_cons, List.mem_cons]
        right
        exact List.mem_map_of_mem Prod.fst h2
    · rw [if_neg (by omega), if_neg (by omega)]
      intro e' he'
      rcases List.mem_cons.mp he' with h1 | h2
      · right; rw [h1]; simp
      · rcases ih e' h2 with h3 | h4
        · left; exact h3
        · right
          simp only [List.map_cons, List.mem_cons]
          right
          exact h4

theorem alistUpdate_keysAscending {α : Type} (dflt : α) (f : α → α) (k : ℕ)
    (m : List (ℕ × α)) (h : keysAscending m) :
    keysAscending (alistUpdate dflt f k m) := by
  induction m with
  | nil => simp [alistUpdate, keysAscending]
  | cons e rest ih =>
    obtain ⟨k'', v⟩ := e
    rw [keysAscending, List.pairwise_cons] at h
    obtain ⟨hall, hrest⟩ := h
    simp only [alistUpdate]
    rcases Nat.lt_trichotomy k k'' with hlt | heq | hgt
    · rw [if_pos hlt]
      rw [keysAscending, List.pairwise_cons]
      constructor
      · intro e' he'
        rcases List.mem_cons.mp he' with h1 | h2
        · rw [h1]; exact hlt
        · exact lt_trans hlt (hall e' h2)
      · exact List.Pairwise.cons hall hrest
    · rw [if_neg (by omega), if_pos heq]
      rw [keysAscending, List.pairwise_cons]
      exact ⟨hall, hrest⟩
    · rw [if_neg (by omega), if_neg (by omega)]
      rw [keysAscending, List.pairwise_cons]
      constructor
      · intro e' he'
        rcases alistUpdate_keys_subset dflt f k rest e' he' with h3 | h4
        · rw [h3]; exact hgt
        · obtain ⟨e'', he'', heq'⟩ := List.mem_map.mp h4
          rw [← heq']
          exact hall e'' he''
      · exact ih hrest

theorem alistFind_update_self {α : Type} (dflt : α) (f : α → α) (k : ℕ)
    (m : List (ℕ × α)) (h : keysAscending m) :
    alistFind (alistUpdate dflt f k m) k = some (f ((alistFind m k).getD dflt)) := by
  induction m with
  | nil => simp [alistUpdate, alistFind]
  | cons e rest ih =>
    obtain ⟨k'', v⟩ := e
    rw [keysAscending, List.pairwise_cons] at h
    obtain ⟨hall, hrest⟩ := h
    simp only [alistUpdate]
    rcases Nat.lt_trichotomy k k'' with hlt | heq | hgt
    · rw [if_pos hlt]
      have hnone : alistFind ((k'', v) :: rest) k = none := by
        apply alistFind_eq_none_of_forall
        intro e he
        rcases List.mem_cons.mp he with h1 | h2
        · rw [h1]; omega
        · have := hall e h2; simp only at this; omega
      rw [hnone]
      simp [alistFind]
    · rw [if_neg (by omega), if_pos heq]
      subst heq
      simp [alistFind]
    · rw [if_neg (by omega), if_neg (by omega)]
      have hne : ¬ k = k'' := by omega
      simp only [alistFind, if_neg hne]
      exact ih hrest

/- ------------------------------------------------------------------ -/
/- Stack accumulator: claims C5 and C7                                 -/
/- ------------------------------------------------------------------ -/

theorem alignedLen_foldl (cigar : List (Char × ℕ)) : ∀ a : ℕ,
    cigar.foldl (fun acc c =>
      if c.1 = 'M' ∨ c.1 = 'N' ∨ c.1 = 'D' ∨ c.1 = '=' ∨ c.1 = 'X' then acc + c.2 else acc) a
      = a + fivePrimeShiftSpec cigar := by
  induction cigar with
  | nil => intro a; simp [fivePrimeShiftSpec]
  | cons c rest ih =>
    intro a
    simp only [List.foldl_cons]
    by_cases hc : c.1 = 'M' ∨ c.1 = 'N' ∨ c.1 = 'D' ∨ c.1 = '=' ∨ c.1 = 'X'
    · rw [if_pos hc, ih]
      have hb : (c.1 == 'M' || c.1 == 'N' || c.1 == 'D' || c.1 == '=' || c.1 == 'X') = true := by
        simp only [Bool.or_eq_true, beq_iff_eq]
        tauto
      simp only [fivePrimeShiftSpec, List.filter_cons, hb, if_true, List.map_cons, List.sum_cons]
      omega
    · rw [if_neg hc, ih]
      have hb : (c.1 == 'M' || c.1 == 'N' || c.1 == 'D' || c.1 == '=' || c.1 == 'X') = false := by
        simp only [Bool.or_eq_false_iff, beq_eq_false_iff_ne, ne_eq]
        tauto
      simp only [fivePrimeShiftSpec, List.filter_cons, hb]
      rfl

theorem alignedLen_eq_spec (cigar : List (Char × ℕ)) :
    alignedLen cigar = fivePrimeShiftSpec cigar := by
  have := alignedLen_foldl cigar 0
  simpa [alignedLen] using this

theorem clippedBasesMinus_eq (cigar : List (Char × ℕ)) (h : ∃ c ∈ cigar, c.1 ≠ 'S') :
    clippedBasesMinus cigar =
      (match cigar.getLast? with
       | some c => if c.1 = 'S' then c.2 else 0
       | none => 0) := by
  match cigar with
  | [] => rfl
  | [c] =>
    have hc : ¬ c.1 = 'S' := by
      obtain ⟨c', hc', hne⟩ := h
      rcases List.mem_singleton.mp hc' with rfl
      exact hne
    simp [clippedBasesMinus, hc]
  | c :: c' :: rest =>
    cases hL : (c :: c' :: rest).getLast? with
    | none => simp at hL
    | some l =>
      have hlen : 1 < (c :: c' :: rest).length := by simp
      by_cases hS : l.1 = 'S'
      · simp [clippedBasesMinus, hL, hS, hlen]
      · simp [clippedBasesMinus, hL, hS, hlen]

/-- C5: for every minus-strand alignment record that passes the mapped and
length filters with positive weight (and whose CIGAR has at least one
operation other than a soft-clip), the accumulator adds its weight at the
5-prime genomic key beginPos plus the summed lengths of the M, N, D, =, X
operations, and or-combines the uridine flag with the test that the last
unclipped stored base (skipping a trailing soft-clip) is adenine. -/
theorem C5_minus_strand_record (minReadLength maxReadLength : ℕ)
    (countMultiHits : TCountMultiHits) (g : TCountsGenome) (r : BamRecord)
    (hmap : r.mapped = true)
    (hmin : minReadLength ≤ r.seq.length) (hmax : r.seq.length ≤ maxReadLength)
    (hw : 0 < recordWeight countMultiHits r)
    (hstrand : r.strandMinus = true)
    (hcig : ∃ c ∈ r.cigar, c.1 ≠ 'S') :
    processRecord minReadLength maxReadLength countMultiHits g r =
      updateGenome g STRAND_MINUS r.rID (r.beginPos + fivePrimeShiftSpec r.cigar)
        (recordWeight countMultiHits r) (minusUridineSpec r) := by
  rw [processRecord]
  rw [if_pos ⟨hmap, hmin, hmax⟩, if_neg (not_le.mpr hw), if_pos hstrand]
  rw [alignedLen_eq_spec, minusUridineSpec, clippedBasesMinus_eq r.cigar hcig]

/-- C7: for every record passing the mapped and length filters (with a
well-formed multiplicity of at least 1), the weight is 1 under the unique
policy, 1 over the multiplicity under the weighted policy, and 1 or 0
under the discard policy according to whether the multiplicity is 1; and
any record of non-positive weight leaves the genome counts unchanged. -/
theorem C7_weight_policy (minReadLength maxReadLength : ℕ)
    (countMultiHits : TCountMultiHits) (g : TCountsGenome) (r : BamRecord)
    (hmap : r.mapped = true)
    (hmin : minReadLength ≤ r.seq.length) (hmax : r.seq.length ≤ maxReadLength)
    (hmult : 1 ≤ readMultiplicity r) :
    (countMultiHits = TCountMultiHits.multiHitsUnique → recordWeight countMultiHits r = 1) ∧
    (countMultiHits = TCountMultiHits.multiHitsWeighted →
      recordWeight countMultiHits r = 1 / (readMultiplicity r : ℚ)) ∧
    (countMultiHits = TCountMultiHits.multiHitsDiscard →
      recordWeight countMultiHits r = if readMultiplicity r = 1 then 1 else 0) ∧
    (recordWeight countMultiHits r ≤ 0 →
      processRecord minReadLength maxReadLength countMultiHits g r = g) := by
  refine ⟨?_, ?_, ?_, ?_⟩
  · intro h; rw [h]; rfl
  · intro h; rw [h]; rfl
  · intro h; rw [h]; rfl
  · intro h
    rw [processRecord]
    rw [if_pos ⟨hmap, hmin, hmax⟩, if_pos h]

/-- Witness for C5 at a concrete minus-strand record with CIGAR 3M and
stored sequence GCA. -/
theorem C5_witness :
    (rEx5.mapped = true ∧ 1 ≤ rEx5.seq.length ∧ rEx5.seq.length ≤ 10 ∧
      0 < recordWeight TCountMultiHits.multiHitsUnique rEx5 ∧ rEx5.strandMinus = true ∧
      (∃ c ∈ rEx5.cigar, c.1 ≠ 'S')) ∧
    processRecord 1 10 TCountMultiHits.multiHitsUnique gEx2 rEx5 =
      updateGenome gEx2 STRAND_MINUS rEx5.rID (rEx5.beginPos + fivePrimeShiftSpec rEx5.cigar)
        (recordWeight TCountMultiHits.multiHitsUnique rEx5) (minusUridineSpec rEx5) :=
  ⟨⟨rfl, by decide, by decide, by decide, rfl, by decide⟩,
    C5_minus_strand_record 1 10 TCountMultiHits.multiHitsUnique gEx2 rEx5 rfl (by decide)
      (by decide) (by decide) rfl (by decide)⟩

/-- Witness for C7 at a concrete record with NH = 2 under the discard
policy, whose weight is 0 and which therefore leaves the counts unchanged. -/
theorem C7_witness :
    (rEx7.mapped = true ∧ 1 ≤ rEx7.seq.length ∧ rEx7.seq.length ≤ 100 ∧
      1 ≤ readMultiplicity rEx7) ∧
    ((TCountMultiHits.multiHitsDiscard = TCountMultiHits.multiHitsUnique →
        recordWeight TCountMultiHits.multiHitsDiscard rEx7 = 1) ∧
     (TCountMultiHits.multiHitsDiscard = TCountMultiHits.multiHitsWeighted →
        recordWeight TCountMultiHits.multiHitsDiscard rEx7 = 1 / (readMultiplicity rEx7 : ℚ)) ∧
     (TCountMultiHits.multiHitsDiscard = TCountMultiHits.multiHitsDiscard →
        recordWeight TCountMultiHits.multiHitsDiscard rEx7 =
          if readMultiplicity rEx7 = 1 then 1 else 0) ∧
     (recordWeight TCountMultiHits.multiHitsDiscard rEx7 ≤ 0 →
        processRecord 1 100 TCountMultiHits.multiHitsDiscard gEx2 rEx7 = gEx2)) :=
  ⟨⟨rfl, by decide, by decide, by decide⟩,
    C7_weight_policy 1 100 TCountMultiHits.multiHitsDiscard gEx2 rEx7 rfl (by decide)
      (by decide) (by decide)⟩

/- ------------------------------------------------------------------ -/
/- Height-score mapper: claim C6                                       -/
/- ------------------------------------------------------------------ -/

theorem mapIncr_find (m : THeightScoreMap) (k h : ℕ) (hm : keysAscending m) :
    alistFind (mapIncr m k) h =
      if h = k then some (((alistFind m k).getD 0) + 1) else alistFind m h := by
  by_cases hk : h = k
  · rw [if_pos hk, hk, mapIncr, alistFind_update_self 0 (· + 1) k m hm]
  · rw [if_neg hk, mapIncr, alistFind_update_ne 0 (· + 1) k h m hk]

theorem mapIncr_keysAscending (m : THeightScoreMap) (k : ℕ) (hm : keysAscending m) :
    keysAscending (mapIncr m k) :=
  alistUpdate_keysAscending 0 (· + 1) k m hm

theorem foldl_mapIncr_getD (ks : List ℕ) : ∀ m : THeightScoreMap, keysAscending m → ∀ h : ℕ,
    (alistFind (ks.foldl mapIncr m) h).getD 0 = (alistFind m h).getD 0 + (ks.count h : ℚ) := by
  induction ks with
  | nil => intro m hm h; simp
  | cons k ks ih =>
    intro m hm h
    rw [List.foldl_cons]
    rw [ih (mapIncr m k) (mapIncr_keysAscending m k hm) h]
    rw [mapIncr_find m k h hm]
    by_cases hk : h = k
    · subst hk
      simp only [if_pos rfl, Option.getD_some, List.count_cons, beq_self_eq_true, if_true]
      push_cast
      ring
    · simp only [if_neg hk, List.count_cons]
      have hbk : (k == h) = false := by simp [Ne.symm hk]
      have hbk2 : (h == k) = false := by simp [hk]
      simp only [hbk, hbk2, Bool.false_eq_true, if_false]
      push_cast
      ring

theorem foldl_mapIncr_isSome (ks : List ℕ) : ∀ m : THeightScoreMap, keysAscending m → ∀ h : ℕ,
    ((alistFind (ks.foldl mapIncr m) h).isSome ↔ (alistFind m h).isSome ∨ h ∈ ks) := by
  induction ks with
  | nil => intro m hm h; simp
  | cons k ks ih =>
    intro m hm h
    rw [List.foldl_cons]
    rw [ih (mapIncr m k) (mapIncr_keysAscending m k hm) h]
    rw [mapIncr_find m k h hm]
    by_cases hk : h = k
    · rw [if_pos hk]
      simp [hk]
    · rw [if_neg hk]
      simp only [List.mem_cons]
      tauto

theorem keysAscending_nil {α : Type} : keysAscending ([] : List (ℕ × α)) :=
  List.Pairwise.nil

/-- C6: after the height-score mapper runs, the entry of the height-score
map at any height h is exactly the number of position records of the
genome, over both strands and all contigs, whose reads value rounds
half-up (truncation after adding 0.5) to h; heights reached by no position
have no entry. -/
theorem C6_height_histogram (g : TCountsGenome) (h : ℕ) :
    alistFind (mapHeightsToScores g) h =
      if 0 < ((genomePositions g).filter (fun p => roundHeight p.reads == h)).length
      then some ((((genomePositions g).filter (fun p => roundHeight p.reads == h)).length : ℚ))
      else none := by
  have hfold : mapHeightsToScores g =
      ((genomePositions g).map (fun p => roundHeight p.reads)).foldl mapIncr [] := by
    rw [mapHeightsToScores, List.foldl_map]
  have hcount : ((genomePositions g).map (fun p => roundHeight p.reads)).count h =
      ((genomePositions g).filter (fun p => roundHeight p.reads == h)).length := by
    rw [List.count_eq_countP]
    rw [List.countP_map]
    rw [← List.countP_eq_length_filter]
    rfl
  have hval := foldl_mapIncr_getD ((genomePositions g).map (fun p => roundHeight p.reads))
    [] keysAscending_nil h
  have hsome := foldl_mapIncr_isSome ((genomePositions g).map (fun p => roundHeight p.reads))
    [] keysAscending_nil h
  rw [← hfold] at hval hsome
  simp only [alistFind, Option.getD_none, Option.isSome_none, Bool.false_eq_true, false_or,
    zero_add] at hval hsome
  by_cases hmem : h ∈ (genomePositions g).map (fun p => roundHeight p.reads)
  · have hpos : 0 < ((genomePositions g).filter (fun p => roundHeight p.reads == h)).length := by
      rw [← hcount]
      exact List.count_pos_iff.mpr hmem
    rw [if_pos hpos]
    have : (alistFind (mapHeightsToScores g) h).isSome := hsome.mpr hmem
    obtain ⟨v, hv⟩ := Option.isSome_iff_exists.mp this
    rw [hv]
    rw [hv] at hval
    simp only [Option.getD_some] at hval
    rw [hval, hcount]
  · have hzero : ((genomePositions g).filter (fun p => roundHeight p.reads == h)).length = 0 := by
      rw [← hcount]
      exact List.count_eq_zero.mpr hmem
    rw [hzero]
    simp only [lt_irrefl, if_false]
    by_contra hne
    have : (alistFind (mapHeightsToScores g) h).isSome := by
      cases hfind : alistFind (mapHeightsToScores g) h with
      | none => exact absurd hfind hne
      | some v => simp
    exact hmem (hsome.mp this)

/- ------------------------------------------------------------------ -/
/- Bin collapser: claims C4, C9, C10                                   -/
/- ------------------------------------------------------------------ -/

theorem addHeightBin_zero (b : THeightBin) : addHeightBin zeroHeightBin b = b := by
  funext ov i j k
  simp [addHeightBin, zeroHeightBin]

theorem zero_hasEmptyBackground : hasEmptyBackground zeroHeightBin :=
  ⟨0, 0, 0, 0, by norm_num [PING_PONG_OVERLAP], le_refl 0⟩

theorem one_not_hasEmptyBackground : ¬ hasEmptyBackground oneHeightBin := by
  rintro ⟨ov, i, j, k, -, hle⟩
  norm_num [oneHeightBin] at hle

theorem absorb_snd_length : ∀ (l : List THeightBin) (acc : THeightBin), l ≠ [] →
    (absorb acc l).2.length < l.length := by
  intro l
  induction l with
  | nil => intro acc h; exact absurd rfl h
  | cons b rest ih =>
    intro acc _
    cases rest with
    | nil => simp [absorb]
    | cons c rs =>
      simp only [absorb]
      by_cases hE : hasEmptyBackground (addHeightBin acc b)
      · rw [if_pos hE]
        have := ih (addHeightBin acc b) (by simp)
        simp only [List.length_cons] at this ⊢
        omega
      · rw [if_neg hE]
        simp

theorem absorb_no_empty : ∀ (l : List THeightBin) (acc : THeightBin),
    (absorb acc l).2 ≠ [] → ¬ hasEmptyBackground (absorb acc l).1 := by
  intro l
  induction l with
  | nil => intro acc h; simp [absorb] at h
  | cons b rest ih =>
    intro acc h
    cases rest with
    | nil => simp [absorb] at h
    | cons c rs =>
      simp only [absorb] at h ⊢
      by_cases hE : hasEmptyBackground (addHeightBin acc b)
      · rw [if_pos hE] at h ⊢
        exact ih _ h
      · rw [if_neg hE] at h ⊢
        exact hE

theorem absorb_cell_sum (ov : Fin 21) (i j k : Fin 2) : ∀ (l : List THeightBin) (acc : THeightBin),
    (absorb acc l).1 ov i j k + ((absorb acc l).2.map (fun b => b ov i j k)).sum
      = acc ov i j k + (l.map (fun b => b ov i j k)).sum := by
  intro l
  induction l with
  | nil => intro acc; simp [absorb]
  | cons b rest ih =>
    intro acc
    cases rest with
    | nil =>
      simp only [absorb, List.map_cons, List.map_nil, List.sum_cons, List.sum_nil, addHeightBin]
      ring
    | cons c rs =>
      simp only [absorb]
      by_cases hE : hasEmptyBackground (addHeightBin acc b)
      · rw [if_pos hE, ih]
        simp only [addHeightBin, List.map_cons, List.sum_cons]
        ring
      · rw [if_neg hE]
        simp only [addHeightBin, List.map_cons, List.sum_cons]
        ring

theorem collapseGo_nil (fuel : ℕ) : collapseGo fuel [] = [] := by
  cases fuel <;> rfl

theorem collapseGo_cons (fuel : ℕ) (b : THeightBin) (rest : List THeightBin) :
    collapseGo (fuel + 1) (b :: rest) =
      (absorb zeroHeightBin (b :: rest)).1 ::
        collapseGo fuel (absorb zeroHeightBin (b :: rest)).2 := rfl

theorem dropLast_cons_ne {α : Type} (a : α) (o : List α) (h : o ≠ []) :
    (a :: o).dropLast = a :: o.dropLast := by
  cases o with
  | nil => exact absurd rfl h
  | cons x xs => rfl

theorem collapseGo_dropLast_good : ∀ (fuel : ℕ) (l : List THeightBin), l.length ≤ fuel →
    ∀ b ∈ (collapseGo fuel l).dropLast, ¬ hasEmptyBackground b := by
  intro fuel
  induction fuel with
  | zero =>
    intro l hl b hb
    have : l = [] := List.length_eq_zero.mp (Nat.le_zero.mp hl)
    subst this
    simp [collapseGo_nil] at hb
  | succ fuel ih =>
    intro l hl b hb
    cases l with
    | nil => simp [collapseGo_nil] at hb
    | cons x rest =>
      rw [collapseGo_cons] at hb
      have hlt := absorb_snd_length (x :: rest) zeroHeightBin (by simp)
      have hlen : (absorb zeroHeightBin (x :: rest)).2.length ≤ fuel := by
        simp only [List.length_cons] at hl hlt
        omega
      cases hout : collapseGo fuel (absorb zeroHeightBin (x :: rest)).2 with
      | nil =>
        rw [hout] at hb
        simp at hb
      | cons y ys =>
        rw [hout] at hb
        rw [dropLast_cons_ne _ _ (by simp)] at hb
        rcases List.mem_cons.mp hb with h1 | h2
        · have hne : (absorb zeroHeightBin (x :: rest)).2 ≠ [] := by
            intro h0
            rw [h0, collapseGo_nil] at hout
            exact List.noConfusion hout
          rw [h1]
          exact absorb_no_empty (x :: rest) zeroHeightBin hne
        · exact ih _ hlen b (by rw [hout]; exact h2)

theorem collapseGo_id : ∀ (fuel : ℕ) (l : List THeightBin), l.length ≤ fuel →
    (∀ b ∈ l.dropLast, ¬ hasEmptyBackground b) → collapseGo fuel l = l := by
  intro fuel
  induction fuel with
  | zero =>
    intro l hl _
    have : l = [] := List.length_eq_zero.mp (Nat.le_zero.mp hl)
    subst this
    exact collapseGo_nil 0
  | succ fuel ih =>
    intro l hl hgood
    cases l with
    | nil => exact collapseGo_nil _
    | cons x rest =>
      cases rest with
      | nil =>
        rw [collapseGo_cons]
        simp [absorb, addHeightBin_zero, collapseGo_nil]
      | cons c rs =>
        have hx : ¬ hasEmptyBackground x := by
          apply hgood
          rw [dropLast_cons_ne _ _ (by simp)]
          exact List.mem_cons_self _ _
        have habs : absorb zeroHeightBin (x :: c :: rs) = (x, c :: rs) := by
          simp only [absorb, addHeightBin_zero]
          rw [if_neg hx]
        rw [collapseGo_cons, habs]
        have hlen : (c :: rs).length ≤ fuel := by
          simp only [List.length_cons] at hl ⊢
          omega
        have hgood' : ∀ b ∈ (c :: rs).dropLast, ¬ hasEmptyBackground b := by
          intro b hb
          apply hgood
          rw [dropLast_cons_ne _ _ (by simp)]
          exact List.mem_cons_of_mem _ hb
        rw [ih (c :: rs) hlen hgood']

/-- C9: the bin collapser is idempotent. Applying collapseBins to its own
output changes nothing: the same number of height-score bins with the same
value in every cell, because every output bin except the last already has
all background cells positive and is absorbed unchanged, and the final bin
is absorbed unchanged when the input runs out. -/
theorem C9_collapse_idempotent (l : List THeightBin) :
    collapseBins (collapseBins l) = collapseBins l := by
  rw [collapseBins, collapseBins]
  exact collapseGo_id _ _ le_rfl (collapseGo_dropLast_good _ _ le_rfl)

theorem collapseGo_cell_sum (ov : Fin 21) (i j k : Fin 2) : ∀ (fuel : ℕ) (l : List THeightBin),
    l.length ≤ fuel →
    ((collapseGo fuel l).map (fun b => b ov i j k)).sum = (l.map (fun b => b ov i j k)).sum := by
  intro fuel
  induction fuel with
  | zero =>
    intro l hl
    have : l = [] := List.length_eq_zero.mp (Nat.le_zero.mp hl)
    subst this
    rfl
  | succ fuel ih =>
    intro l hl
    cases l with
    | nil => rfl
    | cons x rest =>
      rw [collapseGo_cons]
      have hlt := absorb_snd_length (x :: rest) zeroHeightBin (by simp)
      have hlen : (absorb zeroHeightBin (x :: rest)).2.length ≤ fuel := by
        simp only [List.length_cons] at hl hlt
        omega
      rw [List.map_cons, List.sum_cons, ih _ hlen]
      have := absorb_cell_sum ov i j k (x :: rest) zeroHeightBin
      rw [this]
      simp [zeroHeightBin]

/-- C10: the bin collapser conserves evidence. For every fixed overlap
index, uridine combination and local-height status, the cell values summed
over the output height-score bins equal the sum over the input bins. -/
theorem C10_collapse_conserves (l : List THeightBin) (ov : Fin 21) (i j k : Fin 2) :
    ((collapseBins l).map (fun b => b ov i j k)).sum = (l.map (fun b => b ov i j k)).sum := by
  rw [collapseBins]
  exact collapseGo_cell_sum ov i j k l.length l le_rfl

/-- C4 (amended): every height-score bin of the collapser output except
possibly the last has, for every background overlap index, a strictly
positive total count summed over the uridine combinations and the
local-height status. -/
theorem C4_nonempty_background (l : List THeightBin) (b : THeightBin)
    (hb : b ∈ (collapseBins l).dropLast) (ov : Fin 21) (hov : ov.val ≠ PING_PONG_OVERLAP) :
    0 < ∑ i : Fin 2, ∑ j : Fin 2, ∑ k : Fin 2, b ov i j k := by
  have hgood := collapseGo_dropLast_good l.length l le_rfl b (by rw [← collapseBins]; exact hb)
  rw [hasEmptyBackground] at hgood
  push_neg at hgood
  refine Finset.sum_pos (fun i _ => Finset.sum_pos (fun j _ => Finset.sum_pos
    (fun k _ => hgood ov i j k hov) Finset.univ_nonempty) Finset.univ_nonempty)
    Finset.univ_nonempty

theorem absorb_zero_replicate : ∀ n : ℕ,
    absorb zeroHeightBin (List.replicate (n + 1) zeroHeightBin) = (zeroHeightBin, []) := by
  intro n
  induction n with
  | zero => simp [List.replicate, absorb, addHeightBin_zero]
  | succ n ih =>
    rw [List.replicate_succ, List.replicate_succ]
    simp only [absorb, addHeightBin_zero]
    rw [if_pos zero_hasEmptyBackground]
    rw [← List.replicate_succ]
    exact ih

/-- Counterexample to C4 as stated: on the all-zero raw histogram (1000
height-score bins of zeroes, as produced by the grouper on data with no
overlapping stacks) the collapser merges everything into a single bin
whose background totals are 0, not strictly positive. -/
theorem C4_counterexample :
    collapseBins (List.replicate 1000 zeroHeightBin) = [zeroHeightBin] ∧
    (0 : Fin 21).val ≠ PING_PONG_OVERLAP ∧
    (∑ i : Fin 2, ∑ j : Fin 2, ∑ k : Fin 2, zeroHeightBin 0 i j k) = 0 := by
  refine ⟨?_, by norm_num [PING_PONG_OVERLAP], by simp [zeroHeightBin]⟩
  rw [collapseBins, List.length_replicate]
  rw [show (1000 : ℕ) = 999 + 1 from rfl, List.replicate_succ, collapseGo_cons]
  rw [← List.replicate_succ, absorb_zero_replicate 999]
  simp [collapseGo_nil]

/-- Witness for C4 at a concrete two-bin histogram whose first bin has
every cell 1: the first output bin is not the last and has positive
background totals. -/
theorem C4_witness :
    (oneHeightBin ∈ (collapseBins [oneHeightBin, zeroHeightBin]).dropLast) ∧
    ((0 : Fin 21).val ≠ PING_PONG_OVERLAP) ∧
    0 < ∑ i : Fin 2, ∑ j : Fin 2, ∑ k : Fin 2, oneHeightBin 0 i j k := by
  have habs1 : absorb zeroHeightBin [oneHeightBin, zeroHeightBin] = (oneHeightBin, [zeroHeightBin]) := by
    simp only [absorb, addHeightBin_zero]
    rw [if_neg one_not_hasEmptyBackground]
  have hco : collapseBins [oneHeightBin, zeroHeightBin] = [oneHeightBin, zeroHeightBin] := by
    rw [collapseBins]
    simp only [List.length_cons, List.length_nil]
    rw [collapseGo_cons, habs1]
    rw [show (1 : ℕ) = 0 + 1 from rfl, collapseGo_cons]
    simp [absorb, addHeightBin_zero, collapseGo_nil]
  have hmem : oneHeightBin ∈ (collapseBins [oneHeightBin, zeroHeightBin]).dropLast := by
    rw [hco]
    simp [List.dropLast]
  exact ⟨hmem, by norm_num [PING_PONG_OVERLAP],
    C4_nonempty_background [oneHeightBin, zeroHeightBin] oneHeightBin hmem 0
      (by norm_num [PING_PONG_OVERLAP])⟩

/- ------------------------------------------------------------------ -/
/- Overlap grouper: claim C8                                           -/
/- ------------------------------------------------------------------ -/

theorem bumpHist_ne (H : TGroupedStackCounts) (ov bin : ℕ) (i j k : Fin 2) (d : ℚ)
    (ov' bin' : ℕ) (i' j' k' : Fin 2)
    (h : ¬(ov' = ov ∧ bin' = bin ∧ i' = i ∧ j' = j ∧ k' = k)) :
    bumpHist H ov bin i j k d ov' bin' i' j' k' = H ov' bin' i' j' k' := by
  rw [bumpHist, if_neg h]

/-- C8: for every background-offset contribution of the overlap grouper
(overlap index other than the signal distance), exactly the four cells of
the uridine combinations at the given height-score bin and local bin are
incremented, by 0.25 times 0.25, 0.75 times 0.25, 0.25 times 0.75 and 0.75
times 0.75 respectively, every other cell is unchanged, and the four
increments sum to exactly 1. -/
theorem C8_background_split (H : TGroupedStackCounts) (ov bin : ℕ) (uPlus uMinus lb : Fin 2)
    (hov : ov ≠ PING_PONG_OVERLAP) :
    (recordHit H ov bin uPlus uMinus lb ov bin 0 0 lb
        = H ov bin 0 0 lb + (0.25 : ℚ) * 0.25) ∧
    (recordHit H ov bin uPlus uMinus lb ov bin 1 0 lb
        = H ov bin 1 0 lb + (0.75 : ℚ) * 0.25) ∧
    (recordHit H ov bin uPlus uMinus lb ov bin 0 1 lb
        = H ov bin 0 1 lb + (0.25 : ℚ) * 0.75) ∧
    (recordHit H ov bin uPlus uMinus lb ov bin 1 1 lb
        = H ov bin 1 1 lb + (0.75 : ℚ) * 0.75) ∧
    (∀ (ov' bin' : ℕ) (i j k : Fin 2), ¬(ov' = ov ∧ bin' = bin ∧ k = lb) →
      recordHit H ov bin uPlus uMinus lb ov' bin' i j k = H ov' bin' i j k) ∧
    ((0.25 : ℚ) * 0.25 + 0.75 * 0.25 + 0.25 * 0.75 + 0.75 * 0.75 = 1) := by
  refine ⟨?_, ?_, ?_, ?_, ?_, by norm_num⟩
  · rw [recordHit, if_neg hov]
    norm_num [bumpHist, IS_URIDINE, IS_NOT_URIDINE, URIDINE_PROBABILITY, Fin.ext_iff]
  · rw [recordHit, if_neg hov]
    norm_num [bumpHist, IS_URIDINE, IS_NOT_URIDINE, URIDINE_PROBABILITY, Fin.ext_iff]
  · rw [recordHit, if_neg hov]
    norm_num [bumpHist, IS_URIDINE, IS_NOT_URIDINE, URIDINE_PROBABILITY, Fin.ext_iff]
  · rw [recordHit, if_neg hov]
    norm_num [bumpHist, IS_URIDINE, IS_NOT_URIDINE, URIDINE_PROBABILITY, Fin.ext_iff]
  · intro ov' bin' i j k hne
    rw [recordHit, if_neg hov]
    rw [bumpHist_ne _ _ _ _ _ _ _ _ _ _ _ _ (fun h => hne ⟨h.1, h.2.1, h.2.2.2.2⟩)]
    rw [bumpHist_ne _ _ _ _ _ _ _ _ _ _ _ _ (fun h => hne ⟨h.1, h.2.1, h.2.2.2.2⟩)]
    rw [bumpHist_ne _ _ _ _ _ _ _ _ _ _ _ _ (fun h => hne ⟨h.1, h.2.1, h.2.2.2.2⟩)]
    rw [bumpHist_ne _ _ _ _ _ _ _ _ _ _ _ _ (fun h => hne ⟨h.1, h.2.1, h.2.2.2.2⟩)]

/-- Witness for C8 at overlap index 0, an empty histogram, height-score
bin 5 and all binary indices 0. -/
theorem C8_witness :
    ((0 : ℕ) ≠ PING_PONG_OVERLAP) ∧
    ((recordHit emptyGroupedStackCounts 0 5 0 0 0 0 5 0 0 0
        = emptyGroupedStackCounts 0 5 0 0 0 + (0.25 : ℚ) * 0.25) ∧
    (recordHit emptyGroupedStackCounts 0 5 0 0 0 0 5 1 0 0
        = emptyGroupedStackCounts 0 5 1 0 0 + (0.75 : ℚ) * 0.25) ∧
    (recordHit emptyGroupedStackCounts 0 5 0 0 0 0 5 0 1 0
        = emptyGroupedStackCounts 0 5 0 1 0 + (0.25 : ℚ) * 0.75) ∧
    (recordHit emptyGroupedStackCounts 0 5 0 0 0 0 5 1 1 0
        = emptyGroupedStackCounts 0 5 1 1 0 + (0.75 : ℚ) * 0.75) ∧
    (∀ (ov' bin' : ℕ) (i j k : Fin 2), ¬(ov' = 0 ∧ bin' = 5 ∧ k = 0) →
      recordHit emptyGroupedStackCounts 0 5 0 0 0 ov' bin' i j k
        = emptyGroupedStackCounts ov' bin' i j k) ∧
    ((0.25 : ℚ) * 0.25 + 0.75 * 0.25 + 0.25 * 0.75 + 0.75 * 0.75 = 1)) :=
  ⟨by norm_num [PING_PONG_OVERLAP],
    C8_background_split emptyGroupedStackCounts 0 5 0 0 0 (by norm_num [PING_PONG_OVERLAP])⟩

/- ------------------------------------------------------------------ -/
/- Overlap grouper and the height-score map: claim C2                  -/
/- ------------------------------------------------------------------ -/

theorem hsmExtends_refl (m : THeightScoreMap) : hsmExtends m m :=
  ⟨fun _ _ h => h, fun _ _ h => Or.inl h⟩

theorem hsmExtends_trans {a b c : THeightScoreMap} (h1 : hsmExtends a b) (h2 : hsmExtends b c) :
    hsmExtends a c := by
  refine ⟨fun k v h => h2.1 k v (h1.1 k v h), fun k v h => ?_⟩
  rcases h2.2 k v h with h3 | h3
  · exact h1.2 k v h3
  · exact Or.inr h3

theorem mapIndex_hsm (m : THeightScoreMap) (k : ℕ) (hm : keysAscending m) :
    keysAscending (mapIndex m k).2 ∧ hsmExtends m (mapIndex m k).2 := by
  refine ⟨alistUpdate_keysAscending 0 id k m hm, ?_, ?_⟩
  · intro k' v hv
    by_cases hk : k' = k
    · subst hk
      rw [mapIndex]
      rw [alistFind_update_self 0 id k' m hm, hv]
      rfl
    · rw [mapIndex, alistFind_update_ne 0 id k k' m hk]
      exact hv
  · intro k' v hv
    by_cases hk : k' = k
    · subst hk
      rw [mapIndex, alistFind_update_self 0 id k' m hm] at hv
      cases hfind : alistFind m k' with
      | some w =>
        rw [hfind] at hv
        simp only [Option.getD_some, id_eq, Option.some.injEq] at hv
        exact Or.inl (by rw [hv])
      | none =>
        rw [hfind] at hv
        simp only [Option.getD_none, id_eq, Option.some.injEq] at hv
        exact Or.inr hv.symm
    · rw [mapIndex, alistFind_update_ne 0 id k k' m hk] at hv
      exact Or.inl hv

theorem foldl_hsm_inv {β : Type}
    (f : TGroupedStackCounts × THeightScoreMap → β → TGroupedStackCounts × THeightScoreMap)
    (hf : ∀ st b, keysAscending st.2 →
      keysAscending (f st b).2 ∧ hsmExtends st.2 (f st b).2) :
    ∀ (l : List β) (st : TGroupedStackCounts × THeightScoreMap), keysAscending st.2 →
      keysAscending (l.foldl f st).2 ∧ hsmExtends st.2 (l.foldl f st).2 := by
  intro l
  induction l with
  | nil => intro st hst; exact ⟨hst, hsmExtends_refl st.2⟩
  | cons b rest ih =>
    intro st hst
    rw [List.foldl_cons]
    obtain ⟨h1, h2⟩ := hf st b hst
    obtain ⟨h3, h4⟩ := ih (f st b) h1
    exact ⟨h3, hsmExtends_trans h2 h4⟩

theorem processOverlapHit_hsm (binf : ℚ → ℕ) (hsp mean maxV n : ℚ) (uP : Bool)
    (st2 : TGroupedStackCounts × THeightScoreMap) (ovp : ℕ × Option TCountsPosition)
    (h : keysAscending st2.2) :
    keysAscending (processOverlapHit binf hsp mean maxV n uP st2 ovp).2 ∧
      hsmExtends st2.2 (processOverlapHit binf hsp mean maxV n uP st2 ovp).2 := by
  obtain ⟨ov, o⟩ := ovp
  cases o with
  | none => exact ⟨h, hsmExtends_refl st2.2⟩
  | some pm =>
    simp only [processOverlapHit]
    exact mapIndex_hsm st2.2 (truncHeight pm.reads) h

theorem processPlusPosition_hsm (binf : ℚ → ℕ) (cm : TCountsContig)
    (st : TGroupedStackCounts × THeightScoreMap) (pp : ℕ × TCountsPosition)
    (hasc : keysAscending st.2) :
    keysAscending (processPlusPosition binf cm st pp).2 ∧
      hsmExtends st.2 (processPlusPosition binf cm st pp).2 := by
  rw [processPlusPosition]
  split
  · obtain ⟨ha1, he1⟩ := mapIndex_hsm st.2 (truncHeight pp.2.reads) hasc
    obtain ⟨h3, h4⟩ := foldl_hsm_inv _
      (fun st2 b hst2 => processOverlapHit_hsm binf _ _ _ _ _ st2 b hst2)
      (vicinity cm pp.1).enum (st.1, (mapIndex st.2 (truncHeight pp.2.reads)).2) ha1
    exact ⟨h3, hsmExtends_trans he1 h4⟩
  · exact ⟨hasc, hsmExtends_refl st.2⟩

theorem countStacksByGroupWith_hsm (binf : ℚ → ℕ) (g : TCountsGenome) (hsm : THeightScoreMap)
    (hasc : keysAscending hsm) :
    keysAscending (countStacksByGroupWith binf g hsm).2 ∧
      hsmExtends hsm (countStacksByGroupWith binf g hsm).2 := by
  rw [countStacksByGroupWith]
  apply foldl_hsm_inv
  · intro st cp hst
    cases hfind : alistFind g.strandMinus cp.1 with
    | none => exact ⟨hst, hsmExtends_refl st.2⟩
    | some cm =>
      simp only
      exact foldl_hsm_inv _ (fun st2 pp hst2 => processPlusPosition_hsm binf cm st2 pp hst2)
        cp.2 st hst
  · exact hasc

/-- C2 (amended): running the overlap grouper never changes or removes an
existing entry of the height-score map, but its operator[] lookups may
insert new keys holding the value 0, so the key set can grow. -/
theorem C2_map_preserved (g : TCountsGenome) (hsm : THeightScoreMap)
    (hasc : keysAscending hsm) :
    (∀ k v, alistFind hsm k = some v → alistFind (countStacksByGroup g hsm).2 k = some v) ∧
    (∀ k v, alistFind (countStacksByGroup g hsm).2 k = some v →
      alistFind hsm k = some v ∨ v = 0) :=
  (countStacksByGroupWith_hsm (heightScoreBin (maxHeightScore hsm)) g hsm hasc).2

/-- Witness for C2 on the fractional-height genome and its height-score
map: the entry at key 1 survives the scan unchanged. -/
theorem C2_witness :
    keysAscending [((1 : ℕ), (2 : ℚ))] ∧
    ((∀ k v, alistFind [((1 : ℕ), (2 : ℚ))] k = some v →
        alistFind (countStacksByGroup gEx2 [((1 : ℕ), (2 : ℚ))]).2 k = some v) ∧
     (∀ k v, alistFind (countStacksByGroup gEx2 [((1 : ℕ), (2 : ℚ))]).2 k = some v →
        alistFind [((1 : ℕ), (2 : ℚ))] k = some v ∨ v = 0)) :=
  ⟨by simp [keysAscending], C2_map_preserved gEx2 [(1, 2)] (by simp [keysAscending])⟩

theorem hsm_gEx2 : mapHeightsToScores gEx2 = [(1, 2)] := by
  norm_num [mapHeightsToScores, genomePositions, gEx2, roundHeight, mapIncr, alistUpdate,
    List.foldl_cons, List.foldl_nil]

theorem run_gEx2_hsm (binf : ℚ → ℕ) :
    (countStacksByGroupWith binf gEx2 (mapHeightsToScores gEx2)).2 = [(0, 0), (1, 2)] := by
  have hrange : List.range (MAX_ARBITRARY_OVERLAP - MIN_ARBITRARY_OVERLAP + 1) =
      [0, 1, 2, 3, 4, 5, 6, 7, 8, 9, 10, 11, 12, 13, 14, 15, 16, 17, 18, 19, 20] := by decide
  rw [hsm_gEx2]
  norm_num [countStacksByGroupWith, gEx2, processPlusPosition, vicinity, hrange,
    vicinityReadsSum, vicinityMax, mapIndex, truncHeight, alistFind, alistUpdate,
    processOverlapHit, List.foldl_cons, List.foldl_nil, List.enum, List.enumFrom,
    List.map_cons, List.map_nil, Int.toNat_zero, Int.toNat_one]

/-- Counterexample to C2 as stated: on the fractional-height genome gEx2
the grouper looks up the truncated plus-strand height 0, which is not a
key of the height-score map built with rounding, so operator[] inserts a
new entry (0, 0) and the map after the scan differs from the map the
height-score mapper produced. -/
theorem C2_counterexample :
    (countStacksByGroup gEx2 (mapHeightsToScores gEx2)).2 ≠ mapHeightsToScores gEx2 := by
  rw [countStacksByGroup, run_gEx2_hsm, hsm_gEx2]
  intro h
  exact absurd (congrArg List.length h) (by simp)

/- ------------------------------------------------------------------ -/
/- Height-score binning: claims C1 and C3                              -/
/- ------------------------------------------------------------------ -/

theorem realTruncToInt_of_nonneg {x : ℝ} (h : 0 ≤ x) : realTruncToInt x = ⌊x⌋ := if_pos h

theorem intToUnsigned_small {z : ℤ} (h0 : 0 ≤ z) (h1 : z < 2 ^ 32) :
    intToUnsigned z = z.toNat := by
  rw [intToUnsigned, Int.emod_eq_of_lt h0 h1]

theorem logb_four_pos : 0 < Real.logb 10 4 :=
  Real.logb_pos (by norm_num) (by norm_num)

theorem logb_sixteen : Real.logb 10 (16 : ℝ) = 2 * Real.logb 10 4 := by
  rw [show (16 : ℝ) = 4 ^ (2 : ℕ) by norm_num, Real.logb_pow]
  push_cast
  ring

/-- C1 (amended): whenever the scaled log score fits below the bin count,
the height-score bin of pingpongpro.cpp lines 448 to 451 equals the
arithmetic rounding of log10(heightScore) / maxHeightScore times 999 and
lies within 0 to 999. The code applies no clamping, so the containment is
a hypothesis, not a guarantee; C1_counterexample exhibits a run whose bin
index is 1998. -/
theorem C1_bin_formula (maxHS : ℝ) (s : ℚ) (h1 : 0 < maxHS) (h2 : 1 ≤ s)
    (h3 : Real.logb 10 (s : ℝ) / maxHS * ((HEIGHT_SCORE_BINS : ℝ) - 1) + 1 / 2 < 1000) :
    heightScoreBin maxHS s =
      (round (Real.logb 10 (s : ℝ) / maxHS * ((HEIGHT_SCORE_BINS : ℝ) - 1))).toNat ∧
    heightScoreBin maxHS s ≤ HEIGHT_SCORE_BINS - 1 := by
  set y := Real.logb 10 (s : ℝ) / maxHS * ((HEIGHT_SCORE_BINS : ℝ) - 1) with hy
  have hs1 : (1 : ℝ) ≤ (s : ℝ) := by exact_mod_cast h2
  have hlog : 0 ≤ Real.logb 10 (s : ℝ) := Real.logb_nonneg (by norm_num) hs1
  have hy0 : 0 ≤ y := by
    rw [hy]
    apply mul_nonneg (div_nonneg hlog (le_of_lt h1))
    norm_num [HEIGHT_SCORE_BINS]
  have htr : realTruncToInt (0.5 + y) = ⌊0.5 + y⌋ := realTruncToInt_of_nonneg (by linarith)
  have hround : ⌊0.5 + y⌋ = round y := by
    rw [round_eq]
    congr 1
    ring
  have hrnonneg : 0 ≤ round y := by
    rw [← hround]
    exact Int.floor_nonneg.mpr (by linarith)
  have hrlt : round y < 1000 := by
    rw [← hround]
    have hcast : (0.5 : ℝ) + y < ((1000 : ℤ) : ℝ) := by push_cast; linarith
    exact Int.floor_lt.mpr hcast
  have hmod : heightScoreBin maxHS s = (round y).toNat := by
    rw [heightScoreBin, ← hy, htr, hround]
    exact intToUnsigned_small hrnonneg (lt_trans hrlt (by norm_num))
  refine ⟨hmod, ?_⟩
  rw [hmod]
  have h999 : (round y).toNat ≤ 999 := Int.toNat_le.mpr (by omega)
  simpa [HEIGHT_SCORE_BINS] using h999

theorem heightScoreBin_log4_4 : heightScoreBin (Real.logb 10 4) 4 = 999 := by
  rw [heightScoreBin]
  have hc : ((4 : ℚ) : ℝ) = (4 : ℝ) := by norm_num
  rw [hc, div_self (ne_of_gt logb_four_pos)]
  have h1 : (0.5 : ℝ) + 1 * ((HEIGHT_SCORE_BINS : ℝ) - 1) = 999.5 := by
    norm_num [HEIGHT_SCORE_BINS]
  rw [h1, realTruncToInt_of_nonneg (by norm_num)]
  have h2 : ⌊(999.5 : ℝ)⌋ = 999 := by norm_num
  rw [h2, intToUnsigned, Int.emod_eq_of_lt (by norm_num) (by norm_num)]
  rfl

theorem heightScoreBin_log4_16 : heightScoreBin (Real.logb 10 4) 16 = 1998 := by
  rw [heightScoreBin]
  have hc : ((16 : ℚ) : ℝ) = (16 : ℝ) := by norm_num
  rw [hc, logb_sixteen]
  have h1 : (0.5 : ℝ) + 2 * Real.logb 10 4 / Real.logb 10 4 * ((HEIGHT_SCORE_BINS : ℝ) - 1)
      = 1998.5 := by
    rw [mul_div_assoc, div_self (ne_of_gt logb_four_pos)]
    norm_num [HEIGHT_SCORE_BINS]
  rw [h1, realTruncToInt_of_nonneg (by norm_num)]
  have h2 : ⌊(1998.5 : ℝ)⌋ = 1998 := by norm_num
  rw [h2, intToUnsigned, Int.emod_eq_of_lt (by norm_num) (by norm_num)]
  rfl

/-- Witness for C1 at maxHeightScore log10(4) and score product 4: the bin
is the rounded value and lies within range. -/
theorem C1_witness :
    (0 < Real.logb 10 4) ∧ (1 ≤ (4 : ℚ)) ∧
    (Real.logb 10 ((4 : ℚ) : ℝ) / Real.logb 10 4 * ((HEIGHT_SCORE_BINS : ℝ) - 1) + 1 / 2
      < 1000) ∧
    (heightScoreBin (Real.logb 10 4) 4 =
      (round (Real.logb 10 ((4 : ℚ) : ℝ) / Real.logb 10 4 *
        ((HEIGHT_SCORE_BINS : ℝ) - 1))).toNat ∧
     heightScoreBin (Real.logb 10 4) 4 ≤ HEIGHT_SCORE_BINS - 1) := by
  have h1 : 0 < Real.logb 10 (4 : ℝ) := logb_four_pos
  have h3 : Real.logb 10 ((4 : ℚ) : ℝ) / Real.logb 10 4 * ((HEIGHT_SCORE_BINS : ℝ) - 1) + 1 / 2
      < 1000 := by
    have hc : ((4 : ℚ) : ℝ) = (4 : ℝ) := by norm_num
    rw [hc, div_self (ne_of_gt h1)]
    norm_num [HEIGHT_SCORE_BINS]
  exact ⟨h1, by norm_num, h3, C1_bin_formula (Real.logb 10 4) 4 h1 (by norm_num) h3⟩

theorem hsm_gEx1 : mapHeightsToScores gEx1 = [(1, 2), (2, 4)] := by
  norm_num [mapHeightsToScores, genomePositions, gEx1, roundHeight, mapIncr, alistUpdate,
    List.foldl_cons, List.foldl_nil, show Int.toNat 2 = 2 from rfl]

theorem maxHS_gEx1 : maxHeightScore (mapHeightsToScores gEx1) = Real.logb 10 4 := by
  rw [hsm_gEx1, maxHeightScore]
  norm_num

theorem run_gEx1 (binf : ℚ → ℕ) :
    countStacksByGroupWith binf gEx1 (mapHeightsToScores gEx1) =
      (bumpHist emptyGroupedStackCounts 10 (binf 16) IS_NOT_URIDINE IS_NOT_URIDINE
        IS_ABOVE_COVERAGE 1, [(1, 2), (2, 4)]) := by
  have hrange : List.range (MAX_ARBITRARY_OVERLAP - MIN_ARBITRARY_OVERLAP + 1) =
      [0, 1, 2, 3, 4, 5, 6, 7, 8, 9, 10, 11, 12, 13, 14, 15, 16, 17, 18, 19, 20] := by decide
  rw [hsm_gEx1]
  norm_num [countStacksByGroupWith, gEx1, processPlusPosition, vicinity, hrange,
    vicinityReadsSum, vicinityMax, mapIndex, truncHeight, alistFind, alistUpdate,
    processOverlapHit, recordHit, PING_PONG_OVERLAP, uridineBin,
    List.foldl_cons, List.foldl_nil, List.enum, List.enumFrom, List.map_cons, List.map_nil,
    Int.toNat_zero, Int.toNat_one, show Int.toNat 2 = 2 from rfl]

/-- Counterexample to C1 as stated: on the genome gEx1 the smallest
observed height 1 has frequency 2 while the overlapping pair of height-2
stacks has frequency 4 each, so the scaled log score is 2 times 999 and
the signal hit is recorded at bin index 1998, outside 0 to 999. -/
theorem C1_counterexample :
    heightScoreBin (maxHeightScore (mapHeightsToScores gEx1)) 16 = 1998 ∧
    (countStacksByGroup gEx1 (mapHeightsToScores gEx1)).1 10 1998 IS_NOT_URIDINE
      IS_NOT_URIDINE IS_ABOVE_COVERAGE = 1 ∧
    ¬ (1998 ≤ HEIGHT_SCORE_BINS - 1) := by
  have hb : heightScoreBin (maxHeightScore (mapHeightsToScores gEx1)) 16 = 1998 := by
    rw [maxHS_gEx1]
    exact heightScoreBin_log4_16
  refine ⟨hb, ?_, by norm_num [HEIGHT_SCORE_BINS]⟩
  rw [countStacksByGroup, run_gEx1, hb]
  norm_num [bumpHist, emptyGroupedStackCounts]

/-- C3 (amended): the height-score bin index is monotone, not antitone, in
the combined frequency product. For a positive maxHeightScore, products at
least 1 and a scaled log value within the int range, a lower product is
assigned a bin index less than or equal to that of a higher product:
rarer combinations land in lower bins. -/
theorem C3_bin_monotone (maxHS : ℝ) (s₁ s₂ : ℚ) (h0 : 0 < maxHS) (h1 : 1 ≤ s₁) (h2 : s₁ ≤ s₂)
    (hbound : Real.logb 10 (s₂ : ℝ) / maxHS * ((HEIGHT_SCORE_BINS : ℝ) - 1) + 1 / 2 < 2 ^ 31) :
    heightScoreBin maxHS s₁ ≤ heightScoreBin maxHS s₂ := by
  set y₁ := Real.logb 10 (s₁ : ℝ) / maxHS * ((HEIGHT_SCORE_BINS : ℝ) - 1) with hy₁
  set y₂ := Real.logb 10 (s₂ : ℝ) / maxHS * ((HEIGHT_SCORE_BINS : ℝ) - 1) with hy₂
  have hs1 : (1 : ℝ) ≤ (s₁ : ℝ) := by exact_mod_cast h1
  have hs12 : (s₁ : ℝ) ≤ (s₂ : ℝ) := by exact_mod_cast h2
  have hlog1 : 0 ≤ Real.logb 10 (s₁ : ℝ) := Real.logb_nonneg (by norm_num) hs1
  have hlogle : Real.logb 10 (s₁ : ℝ) ≤ Real.logb 10 (s₂ : ℝ) :=
    Real.logb_le_logb_of_le (by norm_num) (by linarith) hs12
  have hyle : y₁ ≤ y₂ := by
    rw [hy₁, hy₂]
    exact mul_le_mul_of_nonneg_right ((div_le_div_iff_of_pos_right h0).mpr hlogle)
      (by norm_num [HEIGHT_SCORE_BINS])
  have hy10 : 0 ≤ y₁ := by
    rw [hy₁]
    exact mul_nonneg (div_nonneg hlog1 h0.le) (by norm_num [HEIGHT_SCORE_BINS])
  have hfl : ⌊(0.5 : ℝ) + y₁⌋ ≤ ⌊(0.5 : ℝ) + y₂⌋ := Int.floor_le_floor (by linarith)
  have hf10 : 0 ≤ ⌊(0.5 : ℝ) + y₁⌋ := Int.floor_nonneg.mpr (by linarith)
  have hf20 : 0 ≤ ⌊(0.5 : ℝ) + y₂⌋ := le_trans hf10 hfl
  have hf2lt : ⌊(0.5 : ℝ) + y₂⌋ < 2 ^ 32 := by
    have hcast : (0.5 : ℝ) + y₂ < ((2 ^ 32 : ℤ) : ℝ) := by
      push_cast
      have h2pow : (2 : ℝ) ^ 31 < (2 : ℝ) ^ 32 := by norm_num
      linarith
    exact Int.floor_lt.mpr hcast
  have hf1lt : ⌊(0.5 : ℝ) + y₁⌋ < 2 ^ 32 := lt_of_le_of_lt hfl hf2lt
  rw [heightScoreBin, heightScoreBin, ← hy₁, ← hy₂,
    realTruncToInt_of_nonneg (by linarith : (0 : ℝ) ≤ 0.5 + y₁),
    realTruncToInt_of_nonneg (by linarith : (0 : ℝ) ≤ 0.5 + y₂),
    intToUnsigned_small hf10 hf1lt, intToUnsigned_small hf20 hf2lt]
  exact Int.toNat_le_toNat hfl

/-- Counterexample to C3 as stated: against maxHeightScore log10(4), the
rarer frequency product 4 receives bin 999 while the more common product
16 receives bin 1998, so the rarer combination lands in the lower bin, not
a higher one. -/
theorem C3_counterexample :
    (4 : ℚ) < 16 ∧
    heightScoreBin (Real.logb 10 4) 4 = 999 ∧
    heightScoreBin (Real.logb 10 4) 16 = 1998 ∧
    ¬ (heightScoreBin (Real.logb 10 4) 4 ≥ heightScoreBin (Real.logb 10 4) 16) := by
  refine ⟨by norm_num, heightScoreBin_log4_4, heightScoreBin_log4_16, ?_⟩
  rw [heightScoreBin_log4_4, heightScoreBin_log4_16]
  norm_num

/-- Witness for C3 at maxHeightScore log10(4) and products 4 and 16. -/
theorem C3_witness :
    (0 < Real.logb 10 4) ∧ (1 ≤ (4 : ℚ)) ∧ ((4 : ℚ) ≤ 16) ∧
    (Real.logb 10 ((16 : ℚ) : ℝ) / Real.logb 10 4 * ((HEIGHT_SCORE_BINS : ℝ) - 1) + 1 / 2
      < 2 ^ 31) ∧
    heightScoreBin (Real.logb 10 4) 4 ≤ heightScoreBin (Real.logb 10 4) 16 := by
  have hb : Real.logb 10 ((16 : ℚ) : ℝ) / Real.logb 10 4 * ((HEIGHT_SCORE_BINS : ℝ) - 1) + 1 / 2
      < 2 ^ 31 := by
    have hc : ((16 : ℚ) : ℝ) = (16 : ℝ) := by norm_num
    rw [hc, logb_sixteen, mul_div_assoc, div_self (ne_of_gt logb_four_pos)]
    norm_num [HEIGHT_SCORE_BINS]
  exact ⟨logb_four_pos, by norm_num, by norm_num, hb,
    C3_bin_monotone (Real.logb 10 4) 4 16 logb_four_pos (by norm_num) (by norm_num) hb⟩
